import Mathlib

/-!
Verification development for the cross-repo validator
(`scripts/cross_repo_validator.py`).

The Python source is shallowly embedded over `List Char` strings.  Files are
modelled as `Option (List Str)` (the list of lines without trailing newlines;
`none` means the file does not exist, matching the `FileNotFoundError`
handlers).  Python dictionaries are modelled as insertion-ordered association
lists with assign-overwrites semantics.  Character classes (`\d`, `\w`, `\s`)
are modelled over ASCII, matching the identifiers and version strings the
validator processes.
-/

/-- Python strings modelled as lists of characters. -/
abbrev Str := List Char

/-- The benchmark-type constant `BENCHMARK_STIG` from the source. -/
def BENCHMARK_STIG : String := "stig"

/-- The benchmark-type constant `BENCHMARK_CIS` from the source. -/
def BENCHMARK_CIS : String := "cis"

/-- Whitespace characters of Python's `\s` / `str.strip()` (ASCII range). -/
def pyWS (c : Char) : Bool :=
  c = ' ' || c = '\t' || c = '\n' || c = '\r' || c = '\x0b' || c = '\x0c'

/-- Python `str.lstrip()` (whitespace only). -/
def pyLstrip (s : Str) : Str := s.dropWhile pyWS

/-- Python `str.rstrip()` (whitespace only). -/
def pyRstrip (s : Str) : Str := (s.reverse.dropWhile pyWS).reverse

/-- Python `str.strip()` (whitespace only). -/
def pyStrip (s : Str) : Str := pyRstrip (pyLstrip s)

/-- Bool test that `pat` is a (not necessarily proper) initial segment of `s`;
mirrors an anchored literal in a compiled regex. -/
def startsWithCh : Str → Str → Bool
  | [], _ => true
  | c :: cs, d :: ds => c = d && startsWithCh cs ds
  | _ :: _, [] => false

/-- The apostrophe character (code point 39). -/
def quoteCh : Char := Char.ofNat 39

/-- The double-quote character (code point 34). -/
def dquoteCh : Char := Char.ofNat 34

/-- Opening curly brace (code point 123). -/
def braceL : Char := Char.ofNat 123

/-- Closing curly brace (code point 125). -/
def braceR : Char := Char.ofNat 125

/-- Python `str.split(sep)` worker; `cur` is the reversed current chunk. -/
def pySplitAux (sep : Char) : Str → Str → List Str
  | [], cur => [cur.reverse]
  | c :: rest, cur =>
    if c = sep then cur.reverse :: pySplitAux sep rest []
    else pySplitAux sep rest (c :: cur)

/-- Python `str.split(sep)` for a one-character separator (keeps empty
chunks, never returns an empty list). -/
def pySplit (sep : Char) (s : Str) : List Str := pySplitAux sep s []

/-- Python dict assignment `m[k] = v`: replace in place or append. -/
def dictAssign {K V : Type} [DecidableEq K] : List (K × V) → K → V → List (K × V)
  | [], k, v => [(k, v)]
  | (a, b) :: t, k, v =>
    if a = k then (k, v) :: t else (a, b) :: dictAssign t k v

/-- Python dict lookup `m.get(k)`. -/
def dictGet? {K V : Type} [DecidableEq K] : List (K × V) → K → Option V
  | [], _ => none
  | (a, b) :: t, k => if a = k then some b else dictGet? t k

/-- Python `Counter[k] += 1`: increment in place or append with count 1. -/
def bump {K : Type} [DecidableEq K] : List (K × Nat) → K → List (K × Nat)
  | [], k => [(k, 1)]
  | (a, n) :: t, k =>
    if a = k then (a, n + 1) :: t else (a, n) :: bump t k

/-- Count held by an insertion-ordered counter (0 for an absent key). -/
def dictCount {K : Type} [DecidableEq K] (m : List (K × Nat)) (k : K) : Nat :=
  (dictGet? m k).getD 0

-- ---------------------------------------------------------------------------
-- Data model (`Finding`, `CheckResult` dataclasses)
-- ---------------------------------------------------------------------------

/-- The `Finding` dataclass: one discrepancy instance. -/
structure Finding where
  file : Str
  line : Nat
  description : Str
  severity : Str
  check_name : Str
deriving DecidableEq

/-- The `CheckResult` dataclass (the float `elapsed` timing field is dropped:
it is set by the runner after the check returns and carries no logic). -/
structure CheckResult where
  name : Str
  status : Str
  findings : List Finding
  summary : Str
deriving DecidableEq

-- ---------------------------------------------------------------------------
-- Identifier normalizer (`toggle_to_rule_key` / `rule_key_to_toggle`)
-- ---------------------------------------------------------------------------

/-- `toggle_to_rule_key(toggle, prefix, rule_id_prefix, benchmark_type)`:
CIS is the identity; STIG requires `toggle` to match the anchored regex
`^{prefix}_(\d{6})$` and a non-empty `rule_id_prefix`, and then returns
`rule_id_prefix + "-" + digits`; otherwise the empty string. -/
def toggle_to_rule_key (toggle pfx ridPfx : Str) (benchmark_type : String) : Str :=
  if benchmark_type = BENCHMARK_CIS then toggle
  else if startsWithCh (pfx ++ ['_']) toggle then
    let ds := toggle.drop (pfx.length + 1)
    if ds.length = 6 && ds.all Char.isDigit && !ridPfx.isEmpty then
      ridPfx ++ '-' :: ds
    else []
  else []

/-- `rule_key_to_toggle(key, prefix, benchmark_type)`:
CIS is the identity; STIG applies `re.search(r"(\d{6})$", key)` — which
succeeds exactly when the final six characters of `key` are digits (the `$`
anchor forces the unique match position `len - 6`) — and returns
`prefix + "_" + last-six-digits`; otherwise the empty string. -/
def rule_key_to_toggle (key pfx : Str) (benchmark_type : String) : Str :=
  if benchmark_type = BENCHMARK_CIS then key
  else if 6 ≤ key.length && (key.drop (key.length - 6)).all Char.isDigit then
    pfx ++ '_' :: key.drop (key.length - 6)
  else []

-- ---------------------------------------------------------------------------
-- Status derivation (`_determine_status`)
-- ---------------------------------------------------------------------------

/-- `_determine_status(findings, warn_on_any)`: FAIL on any error-severity
finding; else WARN when `warn_on_any` and findings is non-empty; else WARN on
any warning-severity finding; else PASS. -/
def _determine_status (findings : List Finding) (warn_on_any : Bool) : Str :=
  if findings.any (fun f => f.severity = "error".data) then "FAIL".data
  else if warn_on_any && !findings.isEmpty then "WARN".data
  else if findings.any (fun f => f.severity = "warning".data) then "WARN".data
  else "PASS".data

-- ---------------------------------------------------------------------------
-- Prefix auto-detection (`auto_detect_prefix`)
-- ---------------------------------------------------------------------------

/-- The top-level declaration-line parse of `auto_detect_prefix`: the line is
`rstrip`ped; empty lines, `#`-comment lines and lines starting with a space or
a tab are skipped; the remainder is matched against `^([a-zA-Z_]\w*):` and the
captured variable name returned.  ASCII word characters model `\w`. -/
def lineName (line : Str) : Option Str :=
  let s := pyRstrip line
  match s with
  | [] => none
  | c :: _ =>
    if c = '#' || c = ' ' || c = '\t' then none
    else if c.isAlpha || c = '_' then
      let run := s.takeWhile (fun d => d.isAlphanum || d = '_')
      match s.drop run.length with
      | ':' :: _ => some run
      | _ => none
    else none

/-- The votes one declaration line casts in `auto_detect_prefix`:
`parts = name.split("_")`, then one vote for `"_".join(parts[:i])` for every
`i in range(1, min(4, len(parts)))`. -/
def lineVotes (line : Str) : List Str :=
  match lineName line with
  | none => []
  | some nm =>
    let parts := pySplit '_' nm
    ((List.range (min 4 parts.length)).drop 1).map
      (fun i => List.intercalate ['_'] (parts.take i))

/-- One step of the scan behind `Counter.most_common(1)`: keep the current
best entry unless a strictly larger count appears (so the first-inserted
entry wins ties, as `heapq.nlargest` is stable). -/
def mc1Step (best : Option (Str × Nat)) (p : Str × Nat) : Option (Str × Nat) :=
  match best with
  | none => some p
  | some b => if p.2 > b.2 then some p else some b

/-- `counter.most_common(1)[0][0]` over an insertion-ordered counter. -/
def mostCommon1 (m : List (Str × Nat)) : Str :=
  match m.foldl mc1Step none with
  | some p => p.1
  | none => []

/-- `auto_detect_prefix(defaults_path)`: Counter-voting over the
underscore-delimited parts of top-level variable names; a missing file
(`FileNotFoundError`) and an empty counter both yield the empty string. -/
def auto_detect_pfx (file : Option (List Str)) : Str :=
  match file with
  | none => []
  | some lines =>
    let c := lines.foldl (fun acc line => (lineVotes line).foldl bump acc)
      ([] : List (Str × Nat))
    if c.isEmpty then [] else mostCommon1 c

-- ---------------------------------------------------------------------------
-- Compiled patterns used by the extractors
-- ---------------------------------------------------------------------------

/-- The compiled STIG toggle pattern `^({prefix}_\d{6})\s*:` produced by
`build_toggle_pattern` (applied with `.match`, so anchored at the start and
allowing arbitrary trailing content after the colon). -/
def stigToggleMatch (pfx : Str) (s : Str) : Option Str :=
  if startsWithCh (pfx ++ ['_']) s then
    let rest := s.drop (pfx.length + 1)
    let ds := rest.take 6
    if ds.length = 6 && ds.all Char.isDigit then
      match (rest.drop 6).dropWhile pyWS with
      | ':' :: _ => some (pfx ++ '_' :: ds)
      | _ => none
    else none
  else none

/-- Attempted match of the STIG conditional pattern
`\{\{\s*if\s+\.Vars\.({prefix}_\d{6})` at the head of `s`
(one candidate position of `re.search`). -/
def condAt (pfx : Str) (s : Str) : Option Str :=
  match s with
  | b1 :: b2 :: rest =>
    if b1 = braceL && b2 = braceL then
      let r1 := rest.dropWhile pyWS
      if startsWithCh ("if".data) r1 then
        let r2 := r1.drop 2
        match r2 with
        | c :: _ =>
          if pyWS c then
            let r3 := r2.dropWhile pyWS
            if startsWithCh (".Vars.".data) r3 then
              let r4 := r3.drop 6
              if startsWithCh (pfx ++ ['_']) r4 then
                let ds := (r4.drop (pfx.length + 1)).take 6
                if ds.length = 6 && ds.all Char.isDigit then
                  some (pfx ++ '_' :: ds)
                else none
              else none
            else none
          else none
        | [] => none
      else none
    else none
  | _ => none

/-- `cond_pat.search(line)` for the STIG conditional pattern: the leftmost
position at which `condAt` succeeds. -/
def condSearch (pfx : Str) : Str → Option Str
  | [] => none
  | c :: rest =>
    match condAt pfx (c :: rest) with
    | some v => some v
    | none => condSearch pfx rest

-- ---------------------------------------------------------------------------
-- Extractors
-- ---------------------------------------------------------------------------

/-- Line loop of `extract_rule_toggles`: `toggle_pat.match(line.strip())`,
recording `toggles[name] = lineno` (later lines overwrite earlier ones). -/
def ertGo (matcher : Str → Option Str) : List Str → Nat → List (Str × Nat) → List (Str × Nat)
  | [], _, m => m
  | l :: ls, i, m =>
    ertGo matcher ls (i + 1)
      (match matcher (pyStrip l) with
       | some nm => dictAssign m nm i
       | none => m)

/-- `extract_rule_toggles(filepath, toggle_pat)`: name → 1-based line number;
a missing file yields the empty map.  The compiled pattern is the `matcher`
parameter, exactly as in the source. -/
def extract_rule_toggles (file : Option (List Str)) (matcher : Str → Option Str) :
    List (Str × Nat) :=
  match file with
  | none => []
  | some lines => ertGo matcher lines 1 []

/-- Per-file line loop of `extract_audit_conditionals`:
`conditionals[m.group(1)] = rel` on every line where the search succeeds. -/
def eacLines (matcher : Str → Option Str) (rel : Str) :
    List Str → List (Str × Str) → List (Str × Str)
  | [], m => m
  | l :: ls, m =>
    eacLines matcher rel ls
      (match matcher l with
       | some nm => dictAssign m nm rel
       | none => m)

/-- File loop of `extract_audit_conditionals` over the walked `.yml` files. -/
def eacFiles (matcher : Str → Option Str) :
    List (Str × List Str) → List (Str × Str) → List (Str × Str)
  | [], m => m
  | f :: fs, m => eacFiles matcher fs (eacLines matcher f.1 f.2 m)

/-- `extract_audit_conditionals(audit_dir, cond_pat)`: toggle name → relative
path of a file whose conditional references it.  The walked tree is modelled
as the ordered list of `(relative path, lines)` pairs the `os.walk` loop
visits. -/
def extract_audit_conditionals (files : List (Str × List Str))
    (matcher : Str → Option Str) : List (Str × Str) :=
  eacFiles matcher files []

/-- Lexicographic code-point order on strings (Python `sorted`). -/
def strLeb : Str → Str → Bool
  | [], _ => true
  | _ :: _, [] => false
  | a :: as, b :: bs =>
    if a = b then strLeb as bs else decide (a.val < b.val)

/-- Stable insertion for `sortByKey` (a new element goes after equals). -/
def insSorted {α : Type} (le : α → α → Bool) (a : α) : List α → List α
  | [] => [a]
  | b :: bs => if le b a then b :: insSorted le a bs else a :: b :: bs

/-- Stable sort by a Boolean order (Python `sorted`). -/
def sortByKey {α : Type} (le : α → α → Bool) (l : List α) : List α :=
  l.foldl (fun acc a => insSorted le a acc) []

/-- `_find_audit_subdirs(audit_dir)`: a missing directory yields `[]`;
otherwise the sorted entries that are directories named `cat_*` or
`section_*`.  The directory is modelled as `Option` of its entry list with
an is-directory flag. -/
def _find_audit_subdirs (dir : Option (List (Str × Bool))) : List Str :=
  match dir with
  | none => []
  | some entries =>
    ((sortByKey (fun a b => strLeb a.1 b.1) entries).filter
      (fun e => e.2 && (startsWithCh ("cat_".data) e.1 ||
                        startsWithCh ("section_".data) e.1))).map (fun e => e.1)

/-- The version-line regex `^benchmark_version:\s*['\"]?([^'\"#\n]+)` used on
the two YAML files, with the captured group `strip`ped as in the source. -/
def bvMatch (line : Str) : Option Str :=
  if startsWithCh ("benchmark_version:".data) line then
    let r1 := (line.drop 18).dropWhile pyWS
    let r2 := match r1 with
      | c :: rest => if c = quoteCh || c = dquoteCh then rest else r1
      | [] => r1
    let cap := r2.takeWhile
      (fun c => !(c = quoteCh || c = dquoteCh || c = '#' || c = '\n'))
    if cap.isEmpty then none else some (pyStrip cap)
  else none

/-- The `run_audit.sh` version regex `^BENCHMARK_VER\s*=\s*([^\s#]+)`. -/
def bverMatch (line : Str) : Option Str :=
  if startsWithCh ("BENCHMARK_VER".data) line then
    match (line.drop 13).dropWhile pyWS with
    | '=' :: rest =>
      let cap := (rest.dropWhile pyWS).takeWhile (fun c => !(pyWS c || c = '#'))
      if cap.isEmpty then none else some (pyStrip cap)
    | _ => none
  else none

/-- First line on which a matcher succeeds (the `break` after a match). -/
def firstHit (f : Str → Option Str) : List Str → Option Str
  | [] => none
  | l :: ls =>
    match f l with
    | some v => some v
    | none => firstHit f ls

/-- `extract_versions(defaults_path, audit_vars_path, run_audit_path)`: up to
one raw version string per site, in site order; every missing file
(`FileNotFoundError`) is skipped, so three missing files yield the empty
map.  The audit-vars map key (a relative path in the source) is the
`auditVarsName` parameter. -/
def extract_versions (defaults audit run : Option (List Str))
    (auditVarsName : Str) : List (Str × Str) :=
  (match defaults with
   | none => []
   | some lines =>
     match firstHit bvMatch lines with
     | some v => [("defaults/main.yml".data, v)]
     | none => []) ++
  (match audit with
   | none => []
   | some lines =>
     match firstHit bvMatch lines with
     | some v => [(auditVarsName, v)]
     | none => []) ++
  (match run with
   | none => []
   | some lines =>
     match firstHit bverMatch lines with
     | some v => [("run_audit.sh".data, v)]
     | none => [])

-- ---------------------------------------------------------------------------
-- Version normalization and the version-consistency check
-- ---------------------------------------------------------------------------

/-- Numeric value of a digit run. -/
def natOfDigits (ds : Str) : Nat :=
  ds.foldl (fun n c => n * 10 + (c.toNat - 48)) 0

/-- Python `int(p)` on a decimal literal: surrounding whitespace is stripped,
an optional sign is allowed, and at least one digit is required
(`ValueError` is `none`). -/
def pyInt? (s : Str) : Option Int :=
  match pyStrip s with
  | '+' :: ds =>
    if !ds.isEmpty && ds.all Char.isDigit then some (natOfDigits ds) else none
  | '-' :: ds =>
    if !ds.isEmpty && ds.all Char.isDigit then some (-(natOfDigits ds : Int)) else none
  | ds =>
    if !ds.isEmpty && ds.all Char.isDigit then some (natOfDigits ds) else none

/-- Sequence a list of options (all-or-nothing, as the generator expression
inside `tuple(...)` raises on the first bad part). -/
def seqOpt {α : Type} : List (Option α) → Option (List α)
  | [] => some []
  | none :: _ => none
  | some a :: t =>
    match seqOpt t with
    | some as => some (a :: as)
    | none => none

/-- The dotted branch of `normalize_version`: split on `.` and parse every
part as an int, returning `()` (here `[]`) on any `ValueError`. -/
def vDotted (r : Str) : List Int :=
  (seqOpt ((pySplit '.' r).map pyInt?)).getD []

/-- `normalize_version(raw)`: strip, strip leading `v`/`V`, try the STIG
`^(\d+)[rR](\d+)$` form, then the dotted form; tuples are lists here. -/
def normalize_version (raw : Str) : List Int :=
  let r := (pyStrip raw).dropWhile (fun c => c = 'v' || c = 'V')
  let a := r.takeWhile Char.isDigit
  match r.drop a.length with
  | c :: b =>
    if (c = 'r' || c = 'R') && !a.isEmpty && !b.isEmpty && b.all Char.isDigit then
      [(natOfDigits a : Int), (natOfDigits b : Int)]
    else vDotted r
  | [] => vDotted r

/-- The local `major_minor` of `check_version_consistency`:
`t[:2] if len(t) >= 2 else t`, which is `take 2` in both cases. -/
def major_minor (t : List Int) : List Int := t.take 2

/-- Description text of a version-mismatch finding. -/
def vcDesc (baseLoc baseRaw loc raw : Str) : Str :=
  "Version mismatch: ".data ++ baseLoc ++ ('=' :: quoteCh :: baseRaw) ++
    (quoteCh :: " vs ".data) ++ loc ++ ('=' :: quoteCh :: raw) ++ [quoteCh]

/-- `check_version_consistency(versions)`: SKIP with no findings when fewer
than two versions were extracted; otherwise compare every site's normalized
`(major, minor)` against the first-listed site's. -/
def check_version_consistency (versions : List (Str × Str)) : CheckResult :=
  if versions.length < 2 then
    ⟨"Version Consistency".data, "SKIP".data, [],
      "Only ".data ++ (toString versions.length).data ++ " version(s) found".data⟩
  else
    match versions with
    | [] =>  -- unreachable: versions.length ≥ 2
      ⟨"Version Consistency".data, "SKIP".data, [],
        "Only 0 version(s) found".data⟩
    | (baseLoc, baseRaw) :: _ =>
      let baseMm := major_minor (normalize_version baseRaw)
      let findings := versions.foldl
        (fun fs p =>
          if p.1 = baseLoc then fs
          else if major_minor (normalize_version p.2) ≠ baseMm then
            fs ++ [⟨p.1, 0, vcDesc baseLoc baseRaw p.1 p.2, "error".data,
                    "version_consistency".data⟩]
          else fs) []
      ⟨"Version Consistency".data, _determine_status findings true, findings,
        (toString findings.length).data ++ " issue(s)".data⟩

-- ---------------------------------------------------------------------------
-- The check battery runner (`main`'s `_run` loop)
-- ---------------------------------------------------------------------------

/-- The sequential check loop built from `main`'s `_run` helper.  Each check
invocation either returns a `CheckResult` or raises (`Except.error` with the
exception message).  `_run` applies the check function with **no** exception
handler (`result = fn(*a, **kw)`), so an exception propagates out of `main`:
the loop stops, the accumulated results are lost, and no later check runs. -/
def runBattery : List (Except String CheckResult) → Except String (List CheckResult)
  | [] => Except.ok []
  | Except.error e :: _ => Except.error e
  | Except.ok r :: cs =>
    match runBattery cs with
    | Except.error e => Except.error e
    | Except.ok rs => Except.ok (r :: rs)

-- ---------------------------------------------------------------------------
-- Specification-side definitions (from the claims' wording, for comparison
-- with the source embedding)
-- ---------------------------------------------------------------------------

/-- Votes a line would cast under claim C6's reading: one vote for each
delimiter-separated sub-name of length 1, 2 and 3 segments, a one-segment
name voting for itself. -/
def claimedLineVotes (line : Str) : List Str :=
  match lineName line with
  | none => []
  | some nm =>
    let parts := pySplit '_' nm
    (List.range' 1 (min 3 parts.length)).map
      (fun i => List.intercalate ['_'] (parts.take i))

/-- The detector as claim C6 describes it: tally `claimedLineVotes`, return
the candidate with the most votes (first-seen tie-break). -/
def claimed_detect_pfx (file : Option (List Str)) : Str :=
  match file with
  | none => []
  | some lines =>
    let c := lines.foldl (fun acc line => (claimedLineVotes line).foldl bump acc)
      ([] : List (Str × Nat))
    if c.isEmpty then [] else mostCommon1 c

/-- Deduplication keeping the first occurrence of every element (the
first-seen order of the counting pass). -/
def fdAux {α : Type} [DecidableEq α] (seen : List α) : List α → List α
  | [] => []
  | a :: l => if a ∈ seen then fdAux seen l else a :: fdAux (a :: seen) l

/-- First-seen deduplication of a list. -/
def firstDedup {α : Type} [DecidableEq α] (l : List α) : List α := fdAux [] l

/-- Votes a line casts under the amended claim C6: one vote for each proper
delimiter-separated sub-name of the declared name covering 1 to
`min 3 (segments - 1)` segments — so a one-segment name casts no vote, and
the full name itself never receives a vote from its own declaration. -/
def specLineVotes (line : Str) : List Str :=
  match lineName line with
  | none => []
  | some nm =>
    let parts := pySplit '_' nm
    (List.range' 1 (min 3 (parts.length - 1))).map
      (fun i => List.intercalate ['_'] (parts.take i))

/-- The detector as the amended claim C6 describes it: collect all votes in
order, and return the first-seen candidate whose vote count is maximal (the
empty string when there are no votes at all). -/
def spec_detect_pfx (file : Option (List Str)) : Str :=
  match file with
  | none => []
  | some lines =>
    let votes := lines.flatMap specLineVotes
    let cands := firstDedup votes
    match cands.find? (fun c => cands.all (fun d => votes.count d ≤ votes.count c)) with
    | some c => c
    | none => []

/-- The file in which a toggle's conditional marker **last** occurs during the
walk (amended claim C4): later files take precedence; `none` when no walked
file contains a marker for the toggle. -/
def lastCondFile (matcher : Str → Option Str) (t : Str) :
    List (Str × List Str) → Option Str
  | [] => none
  | f :: fs =>
    match lastCondFile matcher t fs with
    | some rel => some rel
    | none => if f.2.any (fun l => matcher l = some t) then some f.1 else none

/-- The 1-based number of the **last** line whose stripped content the toggle
pattern maps to `nm` (amended claim C9): indentation is irrelevant because
the source matches against `line.strip()`. -/
def lastStrippedMatch (matcher : Str → Option Str) (nm : Str) :
    List Str → Nat → Option Nat
  | [], _ => none
  | l :: ls, i =>
    match lastStrippedMatch matcher nm ls (i + 1) with
    | some j => some j
    | none => if matcher (pyStrip l) = some nm then some i else none

/-- The first entry of an insertion-ordered counter holding the maximal
count (ties keep the earlier entry). -/
def firstMax {K : Type} : List (K × Nat) → Option (K × Nat)
  | [] => none
  | p :: m =>
    match firstMax m with
    | none => some p
    | some q => if q.2 > p.2 then some q else some p


-- ---------------------------------------------------------------------------
-- General lemmas about the embedding's building blocks
-- ---------------------------------------------------------------------------

theorem startsWithCh_self_append (p s : Str) : startsWithCh p (p ++ s) = true := by
  induction p with
  | nil => rfl
  | cons a as ih => simp [startsWithCh, ih]

theorem startsWithCh_iff (p s : Str) :
    startsWithCh p s = true ↔ ∃ t, s = p ++ t := by
  induction p generalizing s with
  | nil => simp [startsWithCh]
  | cons a as ih =>
    cases s with
    | nil => simp [startsWithCh]
    | cons b bs =>
      simp only [startsWithCh, Bool.and_eq_true, decide_eq_true_eq, ih]
      constructor
      · rintro ⟨rfl, t, rfl⟩; exact ⟨t, rfl⟩
      · rintro ⟨t, h⟩
        cases h
        exact ⟨rfl, t, rfl⟩

theorem drop_len_append (p s : Str) (c : Char) :
    (p ++ c :: s).drop (p.length + 1) = s := by
  have h : p ++ c :: s = (p ++ [c]) ++ s := by simp
  rw [h]
  have h2 : (p ++ [c]).length = p.length + 1 := by simp
  rw [← h2, List.drop_left]

-- The normalizer on a well-shaped STIG toggle: forward direction.
theorem t2rk_shape (pfx ds rid : Str) (h6 : ds.length = 6)
    (hdig : ds.all Char.isDigit = true) (hrid : rid ≠ []) :
    toggle_to_rule_key (pfx ++ '_' :: ds) pfx rid "stig" = rid ++ '-' :: ds := by
  unfold toggle_to_rule_key
  have hsw : startsWithCh (pfx ++ ['_']) (pfx ++ '_' :: ds) = true := by
    have h := startsWithCh_self_append (pfx ++ ['_']) ds
    simpa using h
  have hdrop : (pfx ++ '_' :: ds).drop (pfx.length + 1) = ds :=
    drop_len_append pfx ds '_'
  have hrid2 : rid.isEmpty = false := by
    cases rid with
    | nil => exact absurd rfl hrid
    | cons a t => rfl
  simp [BENCHMARK_CIS, hsw, hdrop, h6, hdig, hrid2]

-- The normalizer on any key ending in six digits: inverse direction.
theorem rk2t_shape (s ds pfx : Str) (h6 : ds.length = 6)
    (hdig : ds.all Char.isDigit = true) :
    rule_key_to_toggle (s ++ ds) pfx "stig" = pfx ++ '_' :: ds := by
  unfold rule_key_to_toggle
  have hdrop : (s ++ ds).drop (s.length + ds.length - 6) = ds := by
    have h : s.length + ds.length - 6 = s.length := by omega
    rw [h, List.drop_left]
  have hdig2 : ∀ x ∈ ds, x.isDigit = true := by
    intro x hx; exact List.all_eq_true.mp hdig x hx
  simp only [List.length_append, hdrop]
  rw [if_neg (by decide : ¬( "stig" : String) = BENCHMARK_CIS)]
  rw [if_pos]
  simp only [Bool.and_eq_true, decide_eq_true_eq]
  exact ⟨by omega, List.all_eq_true.mpr hdig2⟩

-- `toggle_to_rule_key` rejects every ill-shaped STIG input.
theorem t2rk_reject (toggle pfx rid : Str)
    (h : (¬ ∃ ds : Str, toggle = pfx ++ '_' :: ds ∧ ds.length = 6 ∧
            ds.all Char.isDigit = true) ∨ rid = []) :
    toggle_to_rule_key toggle pfx rid "stig" = [] := by
  unfold toggle_to_rule_key
  rw [if_neg (by decide : ¬( "stig" : String) = BENCHMARK_CIS)]
  by_cases hsw : startsWithCh (pfx ++ ['_']) toggle = true
  · obtain ⟨t, rfl⟩ := (startsWithCh_iff _ _).mp hsw
    have hdrop : ((pfx ++ ['_']) ++ t).drop (pfx.length + 1) = t := by
      have h2 : (pfx ++ ['_']).length = pfx.length + 1 := by simp
      rw [← h2, List.drop_left]
    rw [if_pos hsw]
    simp only [hdrop]
    rw [if_neg]
    intro hc
    simp only [Bool.and_eq_true, decide_eq_true_eq, Bool.not_eq_true'] at hc
    obtain ⟨⟨hl, hd⟩, hr⟩ := hc
    rcases h with hno | hrid
    · exact hno ⟨t, by simp, hl, hd⟩
    · rw [hrid] at hr
      exact absurd hr (by decide)
  · rw [if_neg hsw]

-- `rule_key_to_toggle` rejects exactly the keys not ending in six digits.
theorem rk2t_reject (key pfx : Str)
    (h : ¬ ∃ s ds : Str, key = s ++ ds ∧ ds.length = 6 ∧
           ds.all Char.isDigit = true) :
    rule_key_to_toggle key pfx "stig" = [] := by
  unfold rule_key_to_toggle
  rw [if_neg (by decide : ¬( "stig" : String) = BENCHMARK_CIS)]
  rw [if_neg]
  intro hc
  simp only [Bool.and_eq_true, decide_eq_true_eq] at hc
  obtain ⟨hlen, hdig⟩ := hc
  refine h ⟨key.take (key.length - 6), key.drop (key.length - 6),
    (List.take_append_drop _ _).symm, ?_, hdig⟩
  rw [List.length_drop]
  omega

theorem isEmpty_false_iff {α : Type} (l : List α) : l.isEmpty = false ↔ l ≠ [] := by
  cases l <;> simp

-- `_determine_status` never yields SKIP.
theorem ds_ne_skip (fs : List Finding) (w : Bool) :
    _determine_status fs w ≠ "SKIP".data := by
  unfold _determine_status
  split
  · decide
  · split
    · decide
    · split <;> decide

theorem dictGet?_assign_self {K V : Type} [DecidableEq K]
    (m : List (K × V)) (k : K) (v : V) :
    dictGet? (dictAssign m k v) k = some v := by
  induction m with
  | nil => simp [dictAssign, dictGet?]
  | cons p t ih =>
    obtain ⟨a, b⟩ := p
    by_cases h : a = k
    · simp [dictAssign, h, dictGet?]
    · simp [dictAssign, h, dictGet?, ih]

theorem dictGet?_assign_other {K V : Type} [DecidableEq K]
    (m : List (K × V)) (k j : K) (v : V) (h : j ≠ k) :
    dictGet? (dictAssign m k v) j = dictGet? m j := by
  induction m with
  | nil => simp [dictAssign, dictGet?, Ne.symm h]
  | cons p t ih =>
    obtain ⟨a, b⟩ := p
    by_cases ha : a = k
    · subst ha
      simp [dictAssign, dictGet?, Ne.symm h]
    · simp [dictAssign, ha, dictGet?, ih]

-- Lookup after the per-file loop of `extract_audit_conditionals`.
theorem eacLines_get (matcher : Str → Option Str) (rel t : Str)
    (ls : List Str) (m : List (Str × Str)) :
    dictGet? (eacLines matcher rel ls m) t =
      if ls.any (fun l => matcher l = some t) then some rel else dictGet? m t := by
  induction ls generalizing m with
  | nil => simp [eacLines]
  | cons l ls ih =>
    simp only [eacLines]
    by_cases hrest : (ls.any fun l => decide (matcher l = some t)) = true
    · cases hml : matcher l with
      | none => simp [ih, hml, List.any_cons, hrest]
      | some u => simp [ih, List.any_cons, hrest]
    · simp only [Bool.not_eq_true] at hrest
      cases hml : matcher l with
      | none => simp [ih, hml, List.any_cons, hrest]
      | some u =>
        by_cases hu : u = t
        · subst hu
          simp [ih, hml, List.any_cons, hrest, dictGet?_assign_self]
        · have hne : ¬(matcher l = some t) := by rw [hml]; simp [hu]
          have hgo : dictGet? (dictAssign m u rel) t = dictGet? m t :=
            dictGet?_assign_other m u t rel (fun hh => hu hh.symm)
          simp [ih, List.any_cons, hrest, hne, hgo]

-- Lookup after the file loop of `extract_audit_conditionals`.
theorem eacFiles_get (matcher : Str → Option Str) (t : Str)
    (fs : List (Str × List Str)) (m : List (Str × Str)) :
    dictGet? (eacFiles matcher fs m) t =
      match lastCondFile matcher t fs with
      | some rel => some rel
      | none => dictGet? m t := by
  induction fs generalizing m with
  | nil => simp [eacFiles, lastCondFile]
  | cons f fs ih =>
    simp only [eacFiles, lastCondFile]
    rw [ih, eacLines_get]
    cases hlast : lastCondFile matcher t fs with
    | some rel => simp
    | none =>
      by_cases hf : (f.2.any fun l => decide (matcher l = some t)) = true
      · simp [hf]
      · simp only [Bool.not_eq_true] at hf
        simp [hf]

-- Lookup after the line loop of `extract_rule_toggles`.
theorem ertGo_get (matcher : Str → Option Str) (nm : Str)
    (ls : List Str) (i : Nat) (m : List (Str × Nat)) :
    dictGet? (ertGo matcher ls i m) nm =
      match lastStrippedMatch matcher nm ls i with
      | some j => some j
      | none => dictGet? m nm := by
  induction ls generalizing i m with
  | nil => simp [ertGo, lastStrippedMatch]
  | cons l ls ih =>
    simp only [ertGo, lastStrippedMatch]
    rw [ih]
    cases hlast : lastStrippedMatch matcher nm ls (i + 1) with
    | some j => simp
    | none =>
      cases hml : matcher (pyStrip l) with
      | none => simp [hml]
      | some u =>
        by_cases hu : u = nm
        · subst hu
          simp [hml, dictGet?_assign_self]
        · have hne : ¬(matcher (pyStrip l) = some nm) := by rw [hml]; simp [hu]
          have hgo : dictGet? (dictAssign m u i) nm = dictGet? m nm :=
            dictGet?_assign_other m u nm i (fun hh => hu hh.symm)
          simp [hml, hne, hgo, hu]

-- ---------------------------------------------------------------------------
-- Lemmas for the detector equivalence (claim C6)
-- ---------------------------------------------------------------------------

theorem pySplitAux_ne_nil (sep : Char) (s cur : Str) : pySplitAux sep s cur ≠ [] := by
  induction s generalizing cur with
  | nil => simp [pySplitAux]
  | cons c rest ih =>
    simp only [pySplitAux]
    by_cases h : c = sep
    · simp [h]
    · simp [h, ih]

theorem pySplit_length_pos (sep : Char) (s : Str) : 1 ≤ (pySplit sep s).length := by
  have h := pySplitAux_ne_nil sep s []
  unfold pySplit
  cases hs : pySplitAux sep s [] with
  | nil => exact absurd hs h
  | cons a t => simp

-- `range(1, min(4, k))` is the 1..min(3, k-1) segment-count range.
theorem range_min4_drop (k : Nat) (hk : 1 ≤ k) :
    (List.range (min 4 k)).drop 1 = List.range' 1 (min 3 (k - 1)) := by
  have h1 : min 4 k = min 3 (k - 1) + 1 := by omega
  rw [h1, List.range_eq_range', List.range'_succ]
  simp

theorem lineVotes_eq_spec (l : Str) : lineVotes l = specLineVotes l := by
  unfold lineVotes specLineVotes
  cases h : lineName l with
  | none => rfl
  | some nm =>
    simp only []
    rw [range_min4_drop _ (pySplit_length_pos '_' nm)]

theorem foldl_bump_flatMap (lines : List Str) (f : Str → List Str)
    (acc : List (Str × Nat)) :
    lines.foldl (fun c l => (f l).foldl bump c) acc =
      (lines.flatMap f).foldl bump acc := by
  induction lines generalizing acc with
  | nil => rfl
  | cons l ls ih => simp [List.flatMap_cons, List.foldl_append, ih]

theorem bump_count {K : Type} [DecidableEq K] (m : List (K × Nat)) (k j : K) :
    dictCount (bump m k) j = dictCount m j + (if j = k then 1 else 0) := by
  induction m with
  | nil =>
    by_cases h : j = k
    · subst h; simp [bump, dictCount, dictGet?]
    · have h2 : ¬(k = j) := fun hh => h hh.symm
      simp [bump, dictCount, dictGet?, h, h2]
  | cons p t ih =>
    obtain ⟨a, n⟩ := p
    by_cases ha : a = k
    · subst ha
      by_cases hj : a = j
      · subst hj; simp [bump, dictCount, dictGet?]
      · have hj2 : ¬(j = a) := fun hh => hj hh.symm
        simp [bump, dictCount, dictGet?, hj, hj2]
    · by_cases hj : a = j
      · subst hj
        have hk2 : ¬(a = k) := ha
        simp [bump, ha, dictCount, dictGet?, hk2]
      · simp only [bump, ha, if_neg, dictCount, dictGet?, hj]
        exact ih

theorem bump_keys {K : Type} [DecidableEq K] (m : List (K × Nat)) (k : K) :
    (bump m k).map Prod.fst =
      if k ∈ m.map Prod.fst then m.map Prod.fst else m.map Prod.fst ++ [k] := by
  induction m with
  | nil => simp [bump]
  | cons p t ih =>
    obtain ⟨a, n⟩ := p
    by_cases ha : a = k
    · subst ha; simp [bump]
    · have hak : ¬(k = a) := fun hh => ha hh.symm
      by_cases hmem : k ∈ t.map Prod.fst
      · simp [bump, ha, ih, hmem, hak]
      · simp [bump, ha, ih, hmem, hak]

theorem fdAux_mem {α : Type} [DecidableEq α] (seen : List α) (l : List α) (a : α) :
    a ∈ fdAux seen l ↔ a ∈ l ∧ a ∉ seen := by
  induction l generalizing seen with
  | nil => simp [fdAux]
  | cons b t ih =>
    simp only [fdAux]
    by_cases hb : b ∈ seen
    · rw [if_pos hb, ih]
      constructor
      · rintro ⟨h1, h2⟩; exact ⟨List.mem_cons_of_mem b h1, h2⟩
      · rintro ⟨h1, h2⟩
        rcases List.mem_cons.mp h1 with rfl | h1
        · exact absurd hb h2
        · exact ⟨h1, h2⟩
    · rw [if_neg hb]
      constructor
      · intro h
        rcases List.mem_cons.mp h with rfl | h2
        · exact ⟨List.mem_cons_self a t, hb⟩
        · obtain ⟨h3, h4⟩ := (ih (b :: seen)).mp h2
          exact ⟨List.mem_cons_of_mem b h3, fun hs => h4 (List.mem_cons_of_mem b hs)⟩
      · rintro ⟨h1, h2⟩
        rcases List.mem_cons.mp h1 with rfl | h3
        · exact List.mem_cons_self a _
        · by_cases hab : a = b
          · rw [hab]; exact List.mem_cons_self b _
          · refine List.mem_cons_of_mem b ((ih (b :: seen)).mpr ⟨h3, ?_⟩)
            intro hs
            rcases List.mem_cons.mp hs with rfl | hs2
            · exact hab rfl
            · exact h2 hs2

theorem fdAux_append_singleton {α : Type} [DecidableEq α] (seen : List α)
    (l : List α) (v : α) :
    fdAux seen (l ++ [v]) =
      if v ∈ l ∨ v ∈ seen then fdAux seen l else fdAux seen l ++ [v] := by
  induction l generalizing seen with
  | nil =>
    by_cases hv : v ∈ seen
    · simp [fdAux, hv]
    · simp [fdAux, hv]
  | cons b t ih =>
    rw [List.cons_append]
    simp only [fdAux, List.append_eq]
    by_cases hb : b ∈ seen
    · rw [if_pos hb, if_pos hb, ih seen]
      by_cases hc : v ∈ t ∨ v ∈ seen
      · rw [if_pos hc, if_pos]
        rcases hc with h | h
        · exact Or.inl (List.mem_cons_of_mem b h)
        · exact Or.inr h
      · rw [if_neg hc, if_neg]
        intro hcc
        rcases hcc with h | h
        · rcases List.mem_cons.mp h with rfl | h2
          · exact hc (Or.inr hb)
          · exact hc (Or.inl h2)
        · exact hc (Or.inr h)
    · rw [if_neg hb, if_neg hb, ih (b :: seen)]
      by_cases hc : v ∈ t ∨ v ∈ b :: seen
      · rw [if_pos hc, if_pos]
        rcases hc with h | h
        · exact Or.inl (List.mem_cons_of_mem b h)
        · rcases List.mem_cons.mp h with rfl | h2
          · exact Or.inl (List.mem_cons_self _ _)
          · exact Or.inr h2
      · rw [if_neg hc, if_neg]
        · simp
        · intro hcc
          rcases hcc with h | h
          · rcases List.mem_cons.mp h with rfl | h2
            · exact hc (Or.inr (List.mem_cons_self v seen))
            · exact hc (Or.inl h2)
          · exact hc (Or.inr (List.mem_cons_of_mem b h))

theorem fdAux_nodup {α : Type} [DecidableEq α] (seen : List α) (l : List α) :
    (fdAux seen l).Nodup := by
  induction l generalizing seen with
  | nil => simp [fdAux]
  | cons b t ih =>
    simp only [fdAux]
    by_cases hb : b ∈ seen
    · rw [if_pos hb]; exact ih seen
    · rw [if_neg hb]
      refine List.nodup_cons.mpr ⟨?_, ih (b :: seen)⟩
      intro hmem
      exact ((fdAux_mem (b :: seen) t b).mp hmem).2 (List.mem_cons_self b seen)

-- The counter built by the voting loop holds exactly the occurrence counts.
theorem tally_count (vs : List Str) (k : Str) :
    dictCount (vs.foldl bump []) k = vs.count k := by
  induction vs using List.reverseRecOn with
  | nil => simp [dictCount, dictGet?]
  | append_singleton vs v ih =>
    rw [List.foldl_append]
    simp only [List.foldl_cons, List.foldl_nil]
    rw [bump_count, ih, List.count_append]
    by_cases h : k = v
    · subst h; simp
    · simp [List.count_singleton, h]

-- The counter's keys are the candidates in first-seen order.
theorem tally_keys (vs : List Str) :
    (vs.foldl bump []).map Prod.fst = firstDedup vs := by
  induction vs using List.reverseRecOn with
  | nil => simp [firstDedup, fdAux]
  | append_singleton vs v ih =>
    rw [List.foldl_append]
    simp only [List.foldl_cons, List.foldl_nil]
    rw [bump_keys, ih]
    unfold firstDedup
    rw [fdAux_append_singleton]
    have hmem : v ∈ fdAux ([] : List Str) vs ↔ v ∈ vs := by
      rw [fdAux_mem]; simp
    by_cases h : v ∈ vs
    · rw [if_pos (hmem.mpr h), if_pos (by simp [h])]
    · rw [if_neg (fun hc => h (hmem.mp hc)), if_neg (by simp [h])]

-- The `most_common(1)` scan returns the first entry holding the maximum.
theorem firstMax_scan (m : List (Str × Nat)) (b : Str × Nat) :
    m.foldl mc1Step (some b) =
      some (match firstMax m with
            | none => b
            | some q => if q.2 > b.2 then q else b) := by
  induction m generalizing b with
  | nil => simp [firstMax]
  | cons p t ih =>
    simp only [List.foldl_cons, mc1Step, firstMax]
    rw [show (if p.2 > b.2 then some p else some b) =
          some (if p.2 > b.2 then p else b) from (apply_ite some _ p b).symm, ih]
    cases ht : firstMax t with
    | none =>
      by_cases hp : p.2 > b.2
      · simp [hp]
      · simp [hp]
    | some q =>
      by_cases hp : p.2 > b.2
      · by_cases hq : q.2 > p.2
        · have hqb : q.2 > b.2 := by omega
          simp [hp, hq, hqb]
        · simp [hp, hq]
      · by_cases hq : q.2 > p.2
        · by_cases hqb : q.2 > b.2
          · simp [hp, hq, hqb]
          · simp [hp, hq, hqb]
        · have hqb : ¬(q.2 > b.2) := by omega
          simp [hp, hq, hqb]

theorem mostCommon1_eq (m : List (Str × Nat)) (p : Str × Nat)
    (h : firstMax m = some p) : mostCommon1 m = p.1 := by
  cases m with
  | nil => simp [firstMax] at h
  | cons q t =>
    unfold mostCommon1
    simp only [List.foldl_cons, mc1Step]
    rw [firstMax_scan]
    simp only [firstMax] at h
    cases ht : firstMax t with
    | none => rw [ht] at h; simp at h; simp [h]
    | some r =>
      rw [ht] at h
      by_cases hr : r.2 > q.2
      · simp [hr] at h; cases h; simp [hr]
      · simp [hr] at h; cases h; simp [hr]

theorem firstMax_none_eq_nil {K : Type} (m : List (K × Nat))
    (h : firstMax m = none) : m = [] := by
  cases m with
  | nil => rfl
  | cons a t =>
    simp only [firstMax] at h
    cases ht : firstMax t with
    | none => rw [ht] at h; simp at h
    | some r =>
      rw [ht] at h
      by_cases hr : r.2 > a.2 <;> simp [hr] at h

theorem firstMax_mem {K : Type} (m : List (K × Nat)) (p : K × Nat)
    (h : firstMax m = some p) : p ∈ m := by
  induction m generalizing p with
  | nil => simp [firstMax] at h
  | cons q t ih =>
    simp only [firstMax] at h
    cases ht : firstMax t with
    | none => rw [ht] at h; simp at h; simp [h]
    | some r =>
      rw [ht] at h
      by_cases hr : r.2 > q.2
      · simp [hr] at h
        cases h
        exact List.mem_cons_of_mem q (ih _ ht)
      · simp [hr] at h; simp [h]

theorem firstMax_le {K : Type} (m : List (K × Nat)) (p : K × Nat)
    (h : firstMax m = some p) : ∀ q ∈ m, q.2 ≤ p.2 := by
  induction m generalizing p with
  | nil => simp [firstMax] at h
  | cons a t ih =>
    simp only [firstMax] at h
    cases ht : firstMax t with
    | none =>
      rw [ht] at h
      simp at h
      cases h
      intro x hx
      have hnil : t = [] := firstMax_none_eq_nil t ht
      subst hnil
      rcases List.mem_cons.mp hx with rfl | hxt
      · exact le_refl _
      · simp at hxt
    | some r =>
      rw [ht] at h
      by_cases hr : r.2 > a.2
      · simp [hr] at h
        cases h
        intro x hx
        rcases List.mem_cons.mp hx with rfl | hxt
        · omega
        · exact ih _ ht x hxt
      · simp [hr] at h
        cases h
        intro x hx
        rcases List.mem_cons.mp hx with rfl | hxt
        · exact le_refl _
        · have hxr := ih _ ht x hxt
          omega

theorem firstMax_first {K : Type} (m : List (K × Nat)) (p : K × Nat)
    (h : firstMax m = some p) :
    ∃ l1 l2, m = l1 ++ p :: l2 ∧ ∀ q ∈ l1, q.2 < p.2 := by
  induction m generalizing p with
  | nil => simp [firstMax] at h
  | cons a t ih =>
    simp only [firstMax] at h
    cases ht : firstMax t with
    | none =>
      rw [ht] at h; simp at h; cases h
      exact ⟨[], t, rfl, by simp⟩
    | some r =>
      rw [ht] at h
      by_cases hr : r.2 > a.2
      · simp [hr] at h
        cases h
        obtain ⟨l1, l2, heq, hlt⟩ := ih _ ht
        refine ⟨a :: l1, l2, by rw [heq]; rfl, ?_⟩
        intro q hq
        rcases List.mem_cons.mp hq with rfl | hq2
        · omega
        · exact hlt q hq2
      · simp [hr] at h
        cases h
        exact ⟨[], t, rfl, by simp⟩

theorem find?_first_true {α : Type} (pr : α → Bool) (l1 l2 : List α) (p : α)
    (h1 : ∀ q ∈ l1, pr q = false) (hp : pr p = true) :
    (l1 ++ p :: l2).find? pr = some p := by
  induction l1 with
  | nil => simp [List.find?_cons, hp]
  | cons a t ih =>
    have ha : pr a = false := h1 a (List.mem_cons_self a t)
    simp only [List.cons_append, List.find?_cons, ha]
    exact ih (fun q hq => h1 q (List.mem_cons_of_mem a hq))

theorem find?_congr_mem {α : Type} (xs : List α) (f g : α → Bool)
    (h : ∀ x ∈ xs, f x = g x) : xs.find? f = xs.find? g := by
  induction xs with
  | nil => rfl
  | cons y t ih =>
    have hy := h y (List.mem_cons_self y t)
    simp only [List.find?_cons, hy]
    cases hg : g y with
    | true => rfl
    | false => exact ih fun z hz => h z (List.mem_cons_of_mem y hz)

theorem all_congr_mem {α : Type} (xs : List α) (f g : α → Bool)
    (h : ∀ x ∈ xs, f x = g x) : xs.all f = xs.all g := by
  induction xs with
  | nil => rfl
  | cons y t ih =>
    have hhd := h y (List.mem_cons_self y t)
    have htl := ih fun z hz => h z (List.mem_cons_of_mem y hz)
    rw [List.all_cons, List.all_cons, hhd, htl]

theorem dictCount_of_mem_nodup {K : Type} [DecidableEq K]
    (m : List (K × Nat)) (p : K × Nat)
    (hnd : (m.map Prod.fst).Nodup) (hp : p ∈ m) :
    dictCount m p.1 = p.2 := by
  induction m with
  | nil => simp at hp
  | cons a t ih =>
    have hnd2 : a.1 ∉ t.map Prod.fst ∧ (t.map Prod.fst).Nodup := by
      rw [List.map_cons, List.nodup_cons] at hnd
      exact hnd
    rcases List.mem_cons.mp hp with rfl | hpt
    · simp [dictCount, dictGet?]
    · have hne : ¬(a.1 = p.1) := by
        intro hh
        exact hnd2.1 (hh ▸ List.mem_map_of_mem Prod.fst hpt)
      simp only [dictCount, dictGet?, hne, if_neg]
      exact ih hnd2.2 hpt

theorem find?_map_own {α β : Type} (f : α → β) (l : List α) (pr : β → Bool) :
    (l.map f).find? pr = (l.find? (fun a => pr (f a))).map f := by
  induction l with
  | nil => rfl
  | cons a t ih =>
    simp only [List.map_cons, List.find?_cons]
    cases hpa : pr (f a) with
    | true => rfl
    | false => exact ih

theorem firstDedup_nil_iff (votes : List Str) :
    firstDedup votes = [] ↔ votes = [] := by
  cases votes with
  | nil => simp [firstDedup, fdAux]
  | cons v vs => simp [firstDedup, fdAux]

theorem all_map_own {α β : Type} (f : α → β) (l : List α) (pr : β → Bool) :
    (l.map f).all pr = l.all (fun a => pr (f a)) := by
  induction l with
  | nil => rfl
  | cons a t ih => simp only [List.map_cons, List.all_cons, ih]

-- The counter-scan result is the first-seen candidate with the most votes.
theorem detect_bridge (votes : List Str) :
    (if (votes.foldl bump ([] : List (Str × Nat))).isEmpty then []
     else mostCommon1 (votes.foldl bump [])) =
    (match (firstDedup votes).find?
        (fun c => (firstDedup votes).all (fun d => votes.count d ≤ votes.count c)) with
     | some c => c
     | none => []) := by
  cases hv : votes with
  | nil => simp [firstDedup, fdAux]
  | cons v vs =>
    rw [← hv]
    have hvne : votes ≠ [] := by rw [hv]; simp
    have hkeys : (votes.foldl bump []).map Prod.fst = firstDedup votes :=
      tally_keys votes
    have hmne : votes.foldl bump ([] : List (Str × Nat)) ≠ [] := by
      intro h0
      have h1 : firstDedup votes = [] := by rw [← hkeys, h0]; rfl
      exact hvne ((firstDedup_nil_iff votes).mp h1)
    have hie : (votes.foldl bump ([] : List (Str × Nat))).isEmpty = false := by
      cases hm0 : votes.foldl bump ([] : List (Str × Nat)) with
      | nil => exact absurd hm0 hmne
      | cons a t => rfl
    rw [if_neg (by rw [hie]; exact Bool.false_ne_true)]
    cases hfm : firstMax (votes.foldl bump []) with
    | none => exact absurd (firstMax_none_eq_nil _ hfm) hmne
    | some p =>
      have hnodup : ((votes.foldl bump ([] : List (Str × Nat))).map Prod.fst).Nodup := by
        rw [hkeys]; exact fdAux_nodup [] votes
      have hcnt : ∀ e ∈ votes.foldl bump ([] : List (Str × Nat)),
          votes.count e.1 = e.2 := by
        intro e he
        rw [← tally_count votes e.1]
        exact dictCount_of_mem_nodup _ e hnodup he
      rw [mostCommon1_eq _ p hfm]
      rw [← hkeys, find?_map_own]
      have hpred : ∀ e ∈ votes.foldl bump ([] : List (Str × Nat)),
          (((votes.foldl bump ([] : List (Str × Nat))).map Prod.fst).all
            (fun d => votes.count d ≤ votes.count e.1)) =
          ((votes.foldl bump ([] : List (Str × Nat))).all
            (fun e2 => e2.2 ≤ e.2)) := by
        intro e he
        rw [all_map_own]
        refine all_congr_mem _ _ _ ?_
        intro e2 he2
        rw [hcnt e2 he2, hcnt e he]
      have hfind : (votes.foldl bump ([] : List (Str × Nat))).find?
          (fun e => ((votes.foldl bump ([] : List (Str × Nat))).map Prod.fst).all
            (fun d => votes.count d ≤ votes.count e.1)) = some p := by
        rw [find?_congr_mem _ _
          (fun e => (votes.foldl bump ([] : List (Str × Nat))).all
            (fun e2 => e2.2 ≤ e.2)) hpred]
        obtain ⟨l1, l2, heq, hlt⟩ := firstMax_first _ p hfm
        rw [heq]
        refine find?_first_true _ l1 l2 p ?_ ?_
        · intro q hq
          have hqp : q.2 < p.2 := hlt q hq
          have hpmem : p ∈ votes.foldl bump ([] : List (Str × Nat)) :=
            firstMax_mem _ p hfm
          rw [← heq]
          cases hall : (votes.foldl bump ([] : List (Str × Nat))).all
              (fun e2 => e2.2 ≤ q.2) with
          | false => rfl
          | true =>
            exfalso
            have hple := List.all_eq_true.mp hall p hpmem
            simp only [decide_eq_true_eq] at hple
            omega
        · rw [← heq]
          simp only [List.all_eq_true, decide_eq_true_eq]
          exact firstMax_le _ p hfm
      rw [hfind]
      rfl

-- ---------------------------------------------------------------------------
-- Claim theorems
-- ---------------------------------------------------------------------------

/-- Claim C1: for every dialect-B (STIG) toggle of the shape
`pfx_<6 digits>` and any non-empty rule-ID prefix,
`rule_key_to_toggle (toggle_to_rule_key t) = t`; in particular
`toggle_to_rule_key("az2023stig_000100", "az2023stig", "AZLX-23", B)`
is `"AZLX-23-000100"`. -/
theorem C1_normalizer_inverse_law :
    (∀ pfx ds ridPfx : Str, ds.length = 6 → ds.all Char.isDigit = true →
       ridPfx ≠ [] →
       rule_key_to_toggle (toggle_to_rule_key (pfx ++ '_' :: ds) pfx ridPfx "stig")
         pfx "stig" = pfx ++ '_' :: ds) ∧
    toggle_to_rule_key "az2023stig_000100".data "az2023stig".data
      "AZLX-23".data "stig" = "AZLX-23-000100".data := by
  constructor
  · intro pfx ds rid h6 hdig hrid
    rw [t2rk_shape pfx ds rid h6 hdig hrid]
    rw [show rid ++ '-' :: ds = (rid ++ ['-']) ++ ds by simp]
    exact rk2t_shape (rid ++ ['-']) ds pfx h6 hdig
  · decide

/-- Witness for claim C1's theorem at the concrete Scenario-B toggle. -/
theorem C1_normalizer_inverse_law_witness :
    rule_key_to_toggle
      (toggle_to_rule_key ("az2023stig".data ++ '_' :: "000100".data)
        "az2023stig".data "AZLX-23".data "stig") "az2023stig".data "stig" =
      "az2023stig".data ++ '_' :: "000100".data :=
  C1_normalizer_inverse_law.1 "az2023stig".data "000100".data "AZLX-23".data
    (by decide) (by decide) (by decide)

/-- Claim C2 counterexample: `rule_key_to_toggle` does **not** reject a
dialect-B key whose trailing digit run is longer than six digits, nor one
whose leading part is not the expected rule-ID prefix — both map to a
non-empty (partially-correct) toggle name built from the last six digits. -/
theorem C2_empty_key_rejection_cex :
    rule_key_to_toggle "AZLX-23-0001000".data "az2023stig".data "stig" =
      "az2023stig_001000".data ∧
    rule_key_to_toggle "AZLX-23-0001000".data "az2023stig".data "stig" ≠ [] ∧
    rule_key_to_toggle "XXXX-99-000100".data "az2023stig".data "stig" =
      "az2023stig_000100".data ∧
    rule_key_to_toggle "XXXX-99-000100".data "az2023stig".data "stig" ≠ [] := by
  refine ⟨by decide, by decide, by decide, by decide⟩

/-- Claim C2 (amended): `toggle_to_rule_key` returns the empty string on every
dialect-B input not matching `pfx_<exactly six digits>` (and whenever the
rule-ID prefix is empty); `rule_key_to_toggle` returns the empty string
exactly when the key does not end in six digits — any key that does end in
six digits, including one with a longer trailing digit run or an unexpected
rule-ID prefix, is converted to `pfx_<last six digits>`. -/
theorem C2_empty_key_rejection_amended :
    (∀ toggle pfx rid : Str,
       ((¬ ∃ ds : Str, toggle = pfx ++ '_' :: ds ∧ ds.length = 6 ∧
           ds.all Char.isDigit = true) ∨ rid = []) →
       toggle_to_rule_key toggle pfx rid "stig" = []) ∧
    (∀ key pfx : Str,
       (¬ ∃ s ds : Str, key = s ++ ds ∧ ds.length = 6 ∧
          ds.all Char.isDigit = true) →
       rule_key_to_toggle key pfx "stig" = []) ∧
    (∀ s ds pfx : Str, ds.length = 6 → ds.all Char.isDigit = true →
       rule_key_to_toggle (s ++ ds) pfx "stig" = pfx ++ '_' :: ds) :=
  ⟨t2rk_reject, rk2t_reject, rk2t_shape⟩

/-- Witness for claim C2's amended theorem at the long-digit-run key. -/
theorem C2_empty_key_rejection_amended_witness :
    rule_key_to_toggle ( "AZLX-23-0".data ++ "001000".data) "az2023stig".data
      "stig" = "az2023stig".data ++ '_' :: "001000".data :=
  C2_empty_key_rejection_amended.2.2 "AZLX-23-0".data "001000".data
    "az2023stig".data (by decide) (by decide)

/-- Claim C3: `main`'s `_run` helper applies each check function with no
exception handler, so a check that raises aborts the batch: the runner
returns the propagated exception, no FAIL finding is recorded, and the
remaining checks never run.  The first conjunct shows this for every batch
shape; the second evaluates the runner on a concrete three-check batch whose
second check raises. -/
theorem C3_check_exception_containment :
    (∀ (pre : List CheckResult) (e : String)
       (post : List (Except String CheckResult)),
       runBattery (pre.map Except.ok ++ Except.error e :: post) =
         Except.error e) ∧
    runBattery
        [Except.ok ⟨"Rule Toggle Sync".data, "PASS".data, [], "0 issue(s)".data⟩,
         Except.error "boom",
         Except.ok ⟨"Audit File Coverage".data, "PASS".data, [],
           "0 issue(s)".data⟩] =
      Except.error "boom" := by
  constructor
  · intro pre e post
    induction pre with
    | nil => rfl
    | cons r rs ih => simp [runBattery, ih]
  · rfl

/-- Claim C4 counterexample: when two walked audit files both carry the same
toggle's conditional marker, `extract_audit_conditionals` maps the toggle to
the **second** file, not the first — each later occurrence overwrites the
earlier mapping. -/
theorem C4_audit_conditionals_cex :
    condSearch "az2023stig".data
        ([braceL, braceL] ++ " if .Vars.az2023stig_000100 ".data ++
          [braceR, braceR]) = some "az2023stig_000100".data ∧
    dictGet? (extract_audit_conditionals
        [( "cat_1/a.yml".data,
           [[braceL, braceL] ++ " if .Vars.az2023stig_000100 ".data ++
             [braceR, braceR]]),
         ( "cat_1/b.yml".data,
           [[braceL, braceL] ++ " if .Vars.az2023stig_000100 ".data ++
             [braceR, braceR]])]
        (condSearch "az2023stig".data)) "az2023stig_000100".data =
      some "cat_1/b.yml".data ∧
    ( "cat_1/b.yml".data : Str) ≠ "cat_1/a.yml".data := by
  refine ⟨by decide, by decide, by decide⟩

/-- Claim C4 (amended): for every walked audit tree and conditional pattern,
the extractor maps each referenced toggle to the relative path of the file in
which its conditional marker **last** occurs during the walk (the dictionary
assignment overwrites, so the last file wins when several files reference the
same toggle). -/
theorem C4_audit_conditionals_amended
    (files : List (Str × List Str)) (matcher : Str → Option Str) (t : Str) :
    dictGet? (extract_audit_conditionals files matcher) t =
      lastCondFile matcher t files := by
  unfold extract_audit_conditionals
  rw [eacFiles_get]
  cases h : lastCondFile matcher t files <;> simp [dictGet?]

/-- Claim C5: `_determine_status` is FAIL exactly when an error-severity
finding is present; WARN exactly when there is no error but either a warning
finding or (under `warn_on_any`) any finding at all; PASS otherwise.
Consequently appending an error finding always yields FAIL, and appending a
warning finding never yields a status below WARN. -/
theorem C5_status_derivation (fs : List Finding) (w : Bool) :
    (_determine_status fs w = "FAIL".data ↔
      fs.any (fun f => f.severity = "error".data) = true) ∧
    (_determine_status fs w = "WARN".data ↔
      (fs.any (fun f => f.severity = "error".data) = false ∧
       (fs.any (fun f => f.severity = "warning".data) = true ∨
        (w = true ∧ fs ≠ [])))) ∧
    (_determine_status fs w = "PASS".data ↔
      (fs.any (fun f => f.severity = "error".data) = false ∧
       fs.any (fun f => f.severity = "warning".data) = false ∧
       ¬(w = true ∧ fs ≠ []))) ∧
    (∀ f : Finding, f.severity = "error".data →
      _determine_status (fs ++ [f]) w = "FAIL".data) ∧
    (∀ f : Finding, f.severity = "warning".data →
      (_determine_status (fs ++ [f]) w = "FAIL".data ∨
       _determine_status (fs ++ [f]) w = "WARN".data)) := by
  have hne : ∀ l : List Finding, l.isEmpty = false ↔ l ≠ [] := isEmpty_false_iff
  refine ⟨?_, ?_, ?_, ?_, ?_⟩
  · unfold _determine_status
    cases he : fs.any (fun f => f.severity = "error".data) <;>
      simp [he] <;> split <;> simp_all <;> split <;> simp_all
  · unfold _determine_status
    cases he : fs.any (fun f => f.severity = "error".data) <;>
    cases hw : fs.any (fun f => f.severity = "warning".data) <;>
    cases hwa : (w && !fs.isEmpty) <;>
      simp_all [Bool.and_eq_true, Bool.not_eq_true', hne]
  · unfold _determine_status
    cases he : fs.any (fun f => f.severity = "error".data) <;>
    cases hw : fs.any (fun f => f.severity = "warning".data) <;>
    cases hwa : (w && !fs.isEmpty) <;>
      simp_all [Bool.and_eq_true, Bool.not_eq_true', hne]
  · intro f hf
    unfold _determine_status
    rw [if_pos]
    simp [List.any_append, hf]
  · intro f hf
    unfold _determine_status
    by_cases he : ((fs ++ [f]).any (fun g => g.severity = "error".data)) = true
    · left; rw [if_pos he]
    · right
      rw [if_neg he]
      by_cases hwa : (w && !(fs ++ [f]).isEmpty) = true
      · rw [if_pos hwa]
      · rw [if_neg hwa, if_pos]
        simp [List.any_append, hf]

/-- Witness for claim C5's theorem: appending an error-severity finding to an
empty findings list yields FAIL. -/
theorem C5_status_derivation_witness :
    _determine_status
        ([] ++ [⟨ "f".data, 1, "d".data, "error".data, "c".data⟩]) false =
      "FAIL".data :=
  (C5_status_derivation [] false).2.2.2.1
    ⟨ "f".data, 1, "d".data, "error".data, "c".data⟩ rfl

/-- Claim C6 counterexample: on a declarations file holding the single
one-segment name `abc`, the source detector returns the empty string (a
one-segment name casts no vote at all), while the claim's reading — votes
for prefixes of 1..3 segments including the full name — would return
`abc`. -/
theorem C6_detector_voting_cex :
    auto_detect_pfx (some [ "abc: true".data]) = [] ∧
    claimed_detect_pfx (some [ "abc: true".data]) = "abc".data ∧
    ( "abc".data : Str) ≠ [] := by
  refine ⟨by decide, by decide, by decide⟩

/-- Claim C6 (amended): the detector tallies, for each top-level declared
name of `k` delimiter-separated segments, one vote for each **proper**
segment-prefix of 1..min(3, k−1) segments — a one-segment name contributes
no votes and a name never votes for itself — and returns the first-seen
candidate whose vote count is maximal (`spec_detect_pfx` spells this out as
votes-list, first-seen candidate order, counting, and a first maximal
candidate search). -/
theorem C6_detector_voting_amended (file : Option (List Str)) :
    auto_detect_pfx file = spec_detect_pfx file := by
  cases file with
  | none => rfl
  | some lines =>
    unfold auto_detect_pfx spec_detect_pfx
    dsimp only []
    rw [foldl_bump_flatMap lines lineVotes]
    rw [funext lineVotes_eq_spec]
    exact detect_bridge (lines.flatMap specLineVotes)

/-- Claim C7: each cited extractor returns an empty map (or list) when its
input file or directory does not exist — `extract_rule_toggles` and
`extract_versions` catch `FileNotFoundError`, `_find_audit_subdirs` checks
`os.path.isdir` — and no error escapes. -/
theorem C7_extraction_gap_totality :
    (∀ matcher : Str → Option Str, extract_rule_toggles none matcher = []) ∧
    _find_audit_subdirs none = [] ∧
    (∀ nm : Str, extract_versions none none none nm = []) :=
  ⟨fun _ => rfl, rfl, fun _ => rfl⟩

/-- Claim C8: the raw version strings `1.2.0` and `v1.2.5` normalize to
tuples sharing the `(major, minor)` head `(1, 2)`, so a versions map holding
exactly those two entries yields a version-consistency result with no
findings and status PASS. -/
theorem C8_version_patch_drift :
    normalize_version "1.2.0".data = [1, 2, 0] ∧
    normalize_version "v1.2.5".data = [1, 2, 5] ∧
    major_minor (normalize_version "1.2.0".data) =
      major_minor (normalize_version "v1.2.5".data) ∧
    (check_version_consistency
        [( "defaults/main.yml".data, "1.2.0".data),
         ( "vars/STIG.yml".data, "v1.2.5".data)]).findings = [] ∧
    (check_version_consistency
        [( "defaults/main.yml".data, "1.2.0".data),
         ( "vars/STIG.yml".data, "v1.2.5".data)]).status = "PASS".data := by
  refine ⟨by decide, by decide, by decide, by decide, by decide⟩

/-- Claim C9 counterexample: an indented line whose stripped content matches
the toggle pattern **does** contribute an entry — `extract_rule_toggles`
matches against `line.strip()`, so indentation is irrelevant. -/
theorem C9_toggle_indentation_cex :
    extract_rule_toggles (some [ "  az2023stig_000100: true".data])
        (stigToggleMatch "az2023stig".data) =
      [( "az2023stig_000100".data, 1)] ∧
    ([( "az2023stig_000100".data, 1)] : List (Str × Nat)) ≠ [] := by
  refine ⟨by decide, by decide⟩

/-- Claim C9 (amended): for every declarations file and toggle pattern, the
extractor's entry for a name is the 1-based number of the **last** line whose
*stripped* content the pattern maps to that name — indented lines contribute
exactly like unindented ones, and later declarations overwrite earlier
ones. -/
theorem C9_toggle_indentation_amended
    (lines : List Str) (matcher : Str → Option Str) (nm : Str) :
    dictGet? (extract_rule_toggles (some lines) matcher) nm =
      lastStrippedMatch matcher nm lines 1 := by
  unfold extract_rule_toggles
  rw [ertGo_get]
  cases h : lastStrippedMatch matcher nm lines 1 <;> simp [dictGet?]

/-- Claim C10: `check_version_consistency` returns SKIP with an empty
findings list whenever fewer than two versions were extracted, and never
returns SKIP once at least two sites have versions (the comparison against
the first-listed site then always produces a FAIL/WARN/PASS status). -/
theorem C10_version_skip (versions : List (Str × Str)) :
    (versions.length < 2 →
      (check_version_consistency versions).status = "SKIP".data ∧
      (check_version_consistency versions).findings = []) ∧
    (2 ≤ versions.length →
      (check_version_consistency versions).status ≠ "SKIP".data) := by
  constructor
  · intro h
    unfold check_version_consistency
    rw [if_pos h]
    exact ⟨rfl, rfl⟩
  · intro h
    unfold check_version_consistency
    rw [if_neg (by omega)]
    match versions, h with
    | (bl, br) :: t, _ => exact ds_ne_skip _ _

/-- Witness for claim C10's theorem at the empty versions map. -/
theorem C10_version_skip_witness :
    (check_version_consistency []).status = "SKIP".data ∧
    (check_version_consistency []).findings = [] :=
  (C10_version_skip []).1 (by decide)
